import Mathlib

/-!
Shallow embedding of the character-level seq2seq translator
(`sec3-5-seq-to-seq-model.ipynb`): vocabulary index construction, one-hot
vectorization of encoder/decoder tensors, and the greedy decoding loop
`decode_sentence`, together with proofs of the specified properties.

Numeric tensor entries are modelled as exact rationals (the source writes
only the literals `0.` and `1.` into them); the trained LSTM models are
abstract functions from states and one-hot rows to distributions and states.
-/

namespace Seq2Seq

/-- Start-of-sequence marker prepended to every target text
(source: `y_seq = '\t' + y_seq + '\n'`). -/
def startMarker : Char := '\t'

/-- End-of-sequence marker appended to every target text. -/
def endMarker : Char := '\n'

/-- Vocabulary of one corpus side: the sorted list of the distinct characters
occurring in it (source: collect `input_chars` as a set, then
`sorted(list(input_chars))`). -/
def buildVocab (corpus : List String) : List Char :=
  List.insertionSort (· ≤ ·) ((corpus.map String.toList).flatten).dedup

/-- Character-to-index dictionary lookup, `input_token_index[char]` with
`input_token_index = dict([(char, i) for i, char in enumerate(chars)])`;
a missing key raises `KeyError`, modelled as `none`. -/
def char_to_index (vocab : List Char) (c : Char) : Option Nat :=
  if c ∈ vocab then some (List.indexOf c vocab) else none

/-- Index-to-character reverse dictionary lookup,
`reverse_target_char_index[i]`. -/
def index_to_char (vocab : List Char) (i : Nat) : Option Char :=
  vocab.get? i

/-- A row of `n` zeros, one (time, alphabet) slice of `np.zeros`. -/
def zeroRow (n : Nat) : List ℚ := List.replicate n 0

/-- One example's all-zero matrix (time steps × alphabet), `np.zeros((rows, cols))`. -/
def zeroMatrix (rows cols : Nat) : List (List ℚ) := List.replicate rows (zeroRow cols)

/-- The numpy assignment `m[t, j] = 1.` on one example's matrix. -/
def setEntry : List (List ℚ) → Nat → Nat → List (List ℚ)
  | [], _, _ => []
  | row :: rest, 0, j => row.set j 1 :: rest
  | row :: rest, t+1, j => row :: setEntry rest t j

/-- One-hot row of width `n` with the 1 at position `j`: a zero row with a
single entry assigned, exactly as the source writes into a fresh zero buffer. -/
def oneHotRow (n j : Nat) : List ℚ := (zeroRow n).set j 1

/-- The encoder-side fill loop
`for t, char in enumerate(seq): m[t, index[char]] = 1.`:
`none` models a `KeyError` for a character missing from the vocabulary, or an
`IndexError` for a time step past the matrix's time dimension. -/
def fillInput (vocab : List Char) : List Char → Nat → List (List ℚ) → Option (List (List ℚ))
  | [], _, m => some m
  | c :: rest, t, m =>
    match char_to_index vocab c with
    | none => none
    | some j =>
      if t < m.length then fillInput vocab rest (t+1) (setEntry m t j)
      else none

/-- One example `encoder_input_data[i]`: the one-hot matrix of one input sentence, rows
past the sentence's length left all-zero. -/
def encoderData (vocab : List Char) (maxLen : Nat) (x : String) : Option (List (List ℚ)) :=
  fillInput vocab x.toList 0 (zeroMatrix maxLen vocab.length)

/-- The full `encoder_input_data`: the stacked one-hot tensors of all input sentences. -/
def encoder_input_data (vocab : List Char) (maxLen : Nat) (inputs : List String) :
    Option (List (List (List ℚ))) :=
  inputs.mapM (encoderData vocab maxLen)

/-- The decoder-side fill loop of the vectorizer: for each `t, char` in the
wrapped target, `decoder_input_data[t, index[char]] = 1.` and, when `t > 0`,
`decoder_target_data[t - 1, index[char]] = 1.` (the one-timestep shift). -/
def fillDecoderData (vocab : List Char) :
    List Char → Nat → List (List ℚ) → List (List ℚ) →
    Option (List (List ℚ) × List (List ℚ))
  | [], _, di, dt => some (di, dt)
  | c :: rest, t, di, dt =>
    match char_to_index vocab c with
    | none => none
    | some j =>
      if t < di.length then
        fillDecoderData vocab rest (t+1) (setEntry di t j)
          (if t = 0 then dt else setEntry dt (t-1) j)
      else none

/-- One training example's `(decoder_input_data[i], decoder_target_data[i])`
pair, built from the wrapped target text `y`. -/
def decoderData (vocab : List Char) (maxLen : Nat) (y : String) :
    Option (List (List ℚ) × List (List ℚ)) :=
  fillDecoderData vocab y.toList 0 (zeroMatrix maxLen vocab.length)
    (zeroMatrix maxLen vocab.length)

/-- The decoder input/target tensors of the whole training corpus. -/
def decoderDatas (vocab : List Char) (maxLen : Nat) (targets : List String) :
    Option (List (List (List ℚ) × List (List ℚ))) :=
  targets.mapM (decoderData vocab maxLen)

/-- Proof support: the character indices of a wrapped target text under the
vocabulary, in order (`none` as soon as one lookup raises `KeyError`). -/
def charIdxs (vocab : List Char) : List Char → Option (List Nat)
  | [] => some []
  | c :: rest =>
    match char_to_index vocab c, charIdxs vocab rest with
    | some j, some js => some (j :: js)
    | _, _ => none

/-- Proof support: the decoder fill loop after all index lookups succeeded. -/
def fillIdx : List Nat → Nat → List (List ℚ) → List (List ℚ) →
    Option (List (List ℚ) × List (List ℚ))
  | [], _, di, dt => some (di, dt)
  | j :: js, t, di, dt =>
    if t < di.length then
      fillIdx js (t+1) (setEntry di t j) (if t = 0 then dt else setEntry dt (t-1) j)
    else none

/-- Proof support: set entry `js.head` in row `t`, `js[1]` in row `t+1`, and
so on — the cumulative effect of the fill loop on one matrix. -/
def setRows : List (List ℚ) → Nat → List Nat → List (List ℚ)
  | m, _, [] => m
  | m, t, j :: js => setRows (setEntry m t j) (t+1) js

/-- Scanning maximum search: the running best is replaced only on a strictly
larger value, so the first occurrence of the maximum wins. -/
def argmaxAux : List ℚ → Nat → Nat → ℚ → Nat
  | [], _, bi, _ => bi
  | x :: xs, i, bi, bv => if bv < x then argmaxAux xs (i+1) i x else argmaxAux xs (i+1) bi bv

/-- Embedding of `np.argmax` on a probability vector; numpy raises on an empty vector
(`none`). On ties the first (lowest) index is returned. -/
def argmax : List ℚ → Option Nat
  | [] => none
  | x :: xs => some (argmaxAux xs 1 0 x)

/-- Failure of the decoding path: a dictionary `KeyError` / numpy error, or
exhaustion of the explicit fuel bounding the loop embedding. -/
inductive DecodeErr where
  | keyError : DecodeErr
  | fuelOut : DecodeErr
deriving DecidableEq

/-- The trained model as used at inference time: `encoder_model.predict`
mapping the one-hot input matrix to a recurrent state of abstract type `σ`,
and the single-step `decoder_model.predict` mapping a state and a one-step
one-hot row to a distribution over the target alphabet and the next state. -/
structure Seq2SeqModel (σ : Type) where
  encode : List (List ℚ) → σ
  step : σ → List ℚ → List ℚ × σ

/-- The `while not stop_condition` loop of `decode_sentence`, with explicit
fuel: run one decoder step, take the `argmax` character, append it to the
decoded sentence, then stop if it is the end marker or the accumulated length
exceeds `maxDec`; otherwise feed the sampled one-hot back and continue. -/
def decodeLoop {σ : Type} (M : Seq2SeqModel σ) (tc : List Char) (maxDec : Nat) :
    List ℚ → σ → List Char → Nat → Except DecodeErr (List Char)
  | _, _, _, 0 => .error .fuelOut
  | tgt, st, acc, fuel+1 =>
    let out := M.step st tgt
    match argmax out.1 with
    | none => .error .keyError
    | some idx =>
      match index_to_char tc idx with
      | none => .error .keyError
      | some ch =>
        let acc2 := acc ++ [ch]
        if ch = endMarker ∨ maxDec < acc2.length then .ok acc2
        else decodeLoop M tc maxDec (oneHotRow tc.length idx) out.2 acc2 fuel

/-- The function `decode_sentence(input_sentence)`: one-hot encode the input sentence over
the source vocabulary (rows past its length stay all-zero), run the encoder to
get the initial state, seed the target buffer with the start marker's one-hot,
and run the greedy loop. Fuel `maxDec + 1` is proved below to always reach one
of the loop's two exits. -/
def decode_sentence {σ : Type} (M : Seq2SeqModel σ) (ic tc : List Char)
    (maxEnc maxDec : Nat) (input_sentence : String) : Except DecodeErr (List Char) :=
  match fillInput ic input_sentence.toList 0 (zeroMatrix maxEnc ic.length) with
  | none => .error .keyError
  | some input_seq =>
    let st := M.encode input_seq
    match char_to_index tc startMarker with
    | none => .error .keyError
    | some j => decodeLoop M tc maxDec (oneHotRow tc.length j) st [] (maxDec + 1)

/-- Variant of `decode_sentence` with an explicit iteration budget for its `while` loop,
used to state that the loop always terminates within `maxDec + 1` iterations:
any budget of at least `maxDec + 1` produces the very same result. -/
def decode_sentenceFuel {σ : Type} (M : Seq2SeqModel σ) (ic tc : List Char)
    (maxEnc maxDec : Nat) (input_sentence : String) (fuel : Nat) :
    Except DecodeErr (List Char) :=
  match fillInput ic input_sentence.toList 0 (zeroMatrix maxEnc ic.length) with
  | none => .error .keyError
  | some input_seq =>
    let st := M.encode input_seq
    match char_to_index tc startMarker with
    | none => .error .keyError
    | some j => decodeLoop M tc maxDec (oneHotRow tc.length j) st [] fuel

/-- Concrete source vocabulary for ground tests. -/
def icTest : List Char := ['a', 'b']

/-- Concrete target vocabulary for ground tests, in sorted order:
tab, newline, then letters. -/
def tcTest : List Char := ['\t', '\n', 'a', 'b']

/-- The decoder-input matrix of the wrapped target text tab-a-newline over
`tcTest` with four time steps. -/
def diTest : List (List ℚ) := [oneHotRow 4 0, oneHotRow 4 2, oneHotRow 4 1, zeroRow 4]

/-- The decoder-target matrix of the same example: the input shifted left by
one time step, with no encoding for the final padding slot. -/
def dtTest : List (List ℚ) := [oneHotRow 4 2, oneHotRow 4 1, zeroRow 4, zeroRow 4]

/-- Degenerate trained model that emits the start marker first and the end
marker second (its state counts the steps taken). -/
def markerModel : Seq2SeqModel Nat where
  encode := fun _ => 0
  step := fun n _ => (if n = 0 then [1, 0, 0, 0] else [0, 1, 0, 0], n + 1)

/-- Degenerate trained model that always emits the letter at index 2 of
`tcTest` and never the end marker. -/
def constModel : Seq2SeqModel Nat where
  encode := fun _ => 0
  step := fun n _ => ([0, 0, 1, 0], n + 1)

/-! ### Properties of the scanning argmax -/

theorem argmaxAux_spec (l : List ℚ) : ∀ (i bi : Nat) (bv : ℚ),
    (argmaxAux l i bi bv = bi ∧ ∀ m, m < l.length → l.getD m 0 ≤ bv) ∨
    (∃ k, k < l.length ∧ argmaxAux l i bi bv = i + k ∧ bv < l.getD k 0 ∧
      (∀ m, m < l.length → l.getD m 0 ≤ l.getD k 0) ∧
      (∀ m, m < k → l.getD m 0 < l.getD k 0)) := by
  induction l with
  | nil =>
    intro i bi bv
    left
    exact ⟨rfl, fun m hm => absurd hm (Nat.not_lt_zero m)⟩
  | cons x xs ih =>
    intro i bi bv
    by_cases hbx : bv < x
    · rcases ih (i+1) i x with ⟨h1, h2⟩ | ⟨k, hk, h1, h2, h3, h4⟩
      · right
        refine ⟨0, Nat.succ_pos _, ?_, by simpa using hbx, ?_, ?_⟩
        · simpa [argmaxAux, if_pos hbx] using h1
        · intro m hm
          cases m with
          | zero => simp
          | succ m2 =>
            simp only [List.getD_cons_succ, List.getD_cons_zero]
            exact h2 m2 (by simpa using hm)
        · intro m hm
          exact absurd hm (Nat.not_lt_zero m)
      · right
        refine ⟨k + 1, Nat.succ_lt_succ hk, ?_, ?_, ?_, ?_⟩
        · have : argmaxAux (x :: xs) i bi bv = argmaxAux xs (i+1) i x := by
            simp [argmaxAux, if_pos hbx]
          rw [this, h1]
          omega
        · simpa only [List.getD_cons_succ] using lt_trans hbx h2
        · intro m hm
          cases m with
          | zero =>
            simpa only [List.getD_cons_succ, List.getD_cons_zero] using le_of_lt h2
          | succ m2 =>
            simp only [List.getD_cons_succ]
            exact h3 m2 (by simpa using hm)
        · intro m hm
          cases m with
          | zero =>
            simpa only [List.getD_cons_succ, List.getD_cons_zero] using h2
          | succ m2 =>
            simp only [List.getD_cons_succ]
            exact h4 m2 (by omega)
    · have hxbv : x ≤ bv := not_lt.mp hbx
      rcases ih (i+1) bi bv with ⟨h1, h2⟩ | ⟨k, hk, h1, h2, h3, h4⟩
      · left
        constructor
        · simpa [argmaxAux, if_neg hbx] using h1
        · intro m hm
          cases m with
          | zero => simpa using hxbv
          | succ m2 =>
            simp only [List.getD_cons_succ]
            exact h2 m2 (by simpa using hm)
      · right
        refine ⟨k + 1, Nat.succ_lt_succ hk, ?_, ?_, ?_, ?_⟩
        · have : argmaxAux (x :: xs) i bi bv = argmaxAux xs (i+1) bi bv := by
            simp [argmaxAux, if_neg hbx]
          rw [this, h1]
          omega
        · simpa only [List.getD_cons_succ] using h2
        · intro m hm
          cases m with
          | zero =>
            simpa only [List.getD_cons_succ, List.getD_cons_zero] using
              le_of_lt (lt_of_le_of_lt hxbv h2)
          | succ m2 =>
            simp only [List.getD_cons_succ]
            exact h3 m2 (by simpa using hm)
        · intro m hm
          cases m with
          | zero =>
            simpa only [List.getD_cons_succ, List.getD_cons_zero] using
              lt_of_le_of_lt hxbv h2
          | succ m2 =>
            simp only [List.getD_cons_succ]
            exact h4 m2 (by omega)

theorem argmax_spec {l : List ℚ} {i : Nat} (h : argmax l = some i) :
    i < l.length ∧ (∀ m, m < l.length → l.getD m 0 ≤ l.getD i 0) ∧
    (∀ m, m < i → l.getD m 0 < l.getD i 0) := by
  match l with
  | [] => simp [argmax] at h
  | x :: xs =>
    have hi : argmaxAux xs 1 0 x = i := by simpa [argmax] using h
    rcases argmaxAux_spec xs 1 0 x with ⟨h1, h2⟩ | ⟨k, hk, h1, h2, h3, h4⟩
    · have hi0 : i = 0 := by omega
      subst hi0
      refine ⟨Nat.succ_pos _, ?_, ?_⟩
      · intro m hm
        cases m with
        | zero => simp
        | succ m2 =>
          simp only [List.getD_cons_succ, List.getD_cons_zero]
          exact h2 m2 (by simpa using hm)
      · intro m hm
        exact absurd hm (Nat.not_lt_zero m)
    · have hik : i = k + 1 := by omega
      subst hik
      refine ⟨Nat.succ_lt_succ hk, ?_, ?_⟩
      · intro m hm
        cases m with
        | zero =>
          simpa only [List.getD_cons_succ, List.getD_cons_zero] using le_of_lt h2
        | succ m2 =>
          simp only [List.getD_cons_succ]
          exact h3 m2 (by simpa using hm)
      · intro m hm
        cases m with
        | zero =>
          simpa only [List.getD_cons_succ, List.getD_cons_zero] using h2
        | succ m2 =>
          simp only [List.getD_cons_succ]
          exact h4 m2 (by omega)

/-- C5: at every decode step the sampled index is taken by `argmax` over the
step's output distribution; when several alphabet indices tie for the maximum
probability, the lowest such index is selected (the first maximum in
enumeration order). `argmax` is a pure function of the distribution, so the
choice is deterministic given identical logits. -/
theorem spec_C5_argmax_tie_lowest (l : List ℚ) (i : Nat) (h : argmax l = some i) :
    i < l.length ∧ (∀ m, m < l.length → l.getD m 0 ≤ l.getD i 0) ∧
    ∀ j, j < l.length → (∀ m, m < l.length → l.getD m 0 ≤ l.getD j 0) → i ≤ j := by
  obtain ⟨hlen, hmax, hstrict⟩ := argmax_spec h
  refine ⟨hlen, hmax, ?_⟩
  intro j hj hjmax
  by_contra hji
  push_neg at hji
  exact absurd (hjmax i hlen) (not_le.mpr (hstrict j hji))

/-- Witness for C5 at the concrete tied distribution `[1, 3, 3]`: index 1 is
selected, attains the maximum, and is the lowest maximising index. -/
theorem spec_C5_witness :
    argmax [(1 : ℚ), 3, 3] = some 1 ∧
      (1 < [(1 : ℚ), 3, 3].length ∧
        (∀ m, m < [(1 : ℚ), 3, 3].length →
          [(1 : ℚ), 3, 3].getD m 0 ≤ [(1 : ℚ), 3, 3].getD 1 0) ∧
        ∀ j, j < [(1 : ℚ), 3, 3].length →
          (∀ m, m < [(1 : ℚ), 3, 3].length →
            [(1 : ℚ), 3, 3].getD m 0 ≤ [(1 : ℚ), 3, 3].getD j 0) → 1 ≤ j) :=
  ⟨by decide, spec_C5_argmax_tie_lowest [(1 : ℚ), 3, 3] 1 (by decide)⟩

/-! ### Properties of the greedy decoding loop -/

/-- One-step unfolding of the loop body. -/
theorem decodeLoop_succ_eq {σ : Type} (M : Seq2SeqModel σ) (tc : List Char) (maxDec : Nat)
    (tgt : List ℚ) (st : σ) (acc : List Char) (n : Nat) :
    decodeLoop M tc maxDec tgt st acc (n + 1) =
      match argmax (M.step st tgt).1 with
      | none => .error .keyError
      | some idx =>
        match index_to_char tc idx with
        | none => .error .keyError
        | some ch =>
          if ch = endMarker ∨ maxDec < (acc ++ [ch]).length then .ok (acc ++ [ch])
          else decodeLoop M tc maxDec (oneHotRow tc.length idx) (M.step st tgt).2
            (acc ++ [ch]) n := rfl

theorem decodeLoop_no_fuelOut {σ : Type} (M : Seq2SeqModel σ) (tc : List Char) (maxDec : Nat) :
    ∀ (fuel : Nat) (tgt : List ℚ) (st : σ) (acc : List Char),
    maxDec + 1 ≤ acc.length + fuel → acc.length ≤ maxDec →
    decodeLoop M tc maxDec tgt st acc fuel ≠ .error .fuelOut := by
  intro fuel
  induction fuel with
  | zero =>
    intro tgt st acc h1 h2
    omega
  | succ n ih =>
    intro tgt st acc h1 h2 hcontra
    rw [decodeLoop_succ_eq] at hcontra
    rcases hm1 : argmax (M.step st tgt).1 with _ | idx
    · simp [hm1] at hcontra
    · simp only [hm1] at hcontra
      rcases hm2 : index_to_char tc idx with _ | ch
      · simp [hm2] at hcontra
      · simp only [hm2] at hcontra
        by_cases h3 : ch = endMarker ∨ maxDec < (acc ++ [ch]).length
        · rw [if_pos h3] at hcontra
          simp at hcontra
        · rw [if_neg h3] at hcontra
          have hlen : (acc ++ [ch]).length = acc.length + 1 := by simp
          push_neg at h3
          refine ih (oneHotRow tc.length idx) (M.step st tgt).2 (acc ++ [ch])
            (by omega) (by omega) hcontra

theorem decodeLoop_fuel_succ {σ : Type} (M : Seq2SeqModel σ) (tc : List Char) (maxDec : Nat) :
    ∀ (fuel : Nat) (tgt : List ℚ) (st : σ) (acc : List Char),
    decodeLoop M tc maxDec tgt st acc fuel ≠ .error .fuelOut →
    decodeLoop M tc maxDec tgt st acc (fuel + 1) = decodeLoop M tc maxDec tgt st acc fuel := by
  intro fuel
  induction fuel with
  | zero =>
    intro tgt st acc h
    exact absurd rfl h
  | succ n ih =>
    intro tgt st acc h
    rw [decodeLoop_succ_eq M tc maxDec tgt st acc n] at h
    rw [decodeLoop_succ_eq M tc maxDec tgt st acc (n + 1),
      decodeLoop_succ_eq M tc maxDec tgt st acc n]
    rcases hm1 : argmax (M.step st tgt).1 with _ | idx
    · simp only [hm1]
    · simp only [hm1] at h ⊢
      rcases hm2 : index_to_char tc idx with _ | ch
      · simp only [hm2]
      · simp only [hm2] at h ⊢
        by_cases h3 : ch = endMarker ∨ maxDec < (acc ++ [ch]).length
        · rw [if_pos h3, if_pos h3]
        · rw [if_neg h3, if_neg h3]
          rw [if_neg h3] at h
          exact ih (oneHotRow tc.length idx) (M.step st tgt).2 (acc ++ [ch]) h

theorem decodeLoop_fuel_stable {σ : Type} (M : Seq2SeqModel σ) (tc : List Char) (maxDec : Nat)
    (tgt : List ℚ) (st : σ) : ∀ (k : Nat),
    decodeLoop M tc maxDec tgt st [] (maxDec + 1 + k) =
      decodeLoop M tc maxDec tgt st [] (maxDec + 1) := by
  intro k
  induction k with
  | zero => rfl
  | succ n ih =>
    have hn : decodeLoop M tc maxDec tgt st [] (maxDec + 1 + n) ≠ .error .fuelOut := by
      rw [ih]
      exact decodeLoop_no_fuelOut M tc maxDec (maxDec + 1) tgt st []
        (by simp) (by simp)
    calc decodeLoop M tc maxDec tgt st [] (maxDec + 1 + n + 1)
        = decodeLoop M tc maxDec tgt st [] (maxDec + 1 + n) :=
          decodeLoop_fuel_succ M tc maxDec (maxDec + 1 + n) tgt st [] hn
      _ = decodeLoop M tc maxDec tgt st [] (maxDec + 1) := ih

theorem decodeLoop_ok_length {σ : Type} (M : Seq2SeqModel σ) (tc : List Char) (maxDec : Nat) :
    ∀ (fuel : Nat) (tgt : List ℚ) (st : σ) (acc s : List Char),
    acc.length ≤ maxDec → decodeLoop M tc maxDec tgt st acc fuel = .ok s →
    s.length ≤ maxDec + 1 := by
  intro fuel
  induction fuel with
  | zero =>
    intro tgt st acc s hacc h
    simp [decodeLoop] at h
  | succ n ih =>
    intro tgt st acc s hacc h
    rw [decodeLoop_succ_eq] at h
    rcases hm1 : argmax (M.step st tgt).1 with _ | idx
    · simp [hm1] at h
    · simp only [hm1] at h
      rcases hm2 : index_to_char tc idx with _ | ch
      · simp [hm2] at h
      · simp only [hm2] at h
        by_cases h3 : ch = endMarker ∨ maxDec < (acc ++ [ch]).length
        · rw [if_pos h3] at h
          have hs : s = acc ++ [ch] := by simpa using h.symm
          subst hs
          simp only [List.length_append, List.length_cons, List.length_nil]
          omega
        · rw [if_neg h3] at h
          push_neg at h3
          exact ih (oneHotRow tc.length idx) (M.step st tgt).2 (acc ++ [ch]) s
            (by simpa using h3.2) h

theorem decodeLoop_ok_shape {σ : Type} (M : Seq2SeqModel σ) (tc : List Char) (maxDec : Nat) :
    ∀ (fuel : Nat) (tgt : List ℚ) (st : σ) (acc s : List Char),
    acc.length ≤ maxDec → decodeLoop M tc maxDec tgt st acc fuel = .ok s →
    acc.length < s.length ∧ (s.getLast? = some endMarker ∨ s.length = maxDec + 1) := by
  intro fuel
  induction fuel with
  | zero =>
    intro tgt st acc s hacc h
    simp [decodeLoop] at h
  | succ n ih =>
    intro tgt st acc s hacc h
    rw [decodeLoop_succ_eq] at h
    rcases hm1 : argmax (M.step st tgt).1 with _ | idx
    · simp [hm1] at h
    · simp only [hm1] at h
      rcases hm2 : index_to_char tc idx with _ | ch
      · simp [hm2] at h
      · simp only [hm2] at h
        by_cases h3 : ch = endMarker ∨ maxDec < (acc ++ [ch]).length
        · rw [if_pos h3] at h
          have hs : s = acc ++ [ch] := by simpa using h.symm
          subst hs
          have hlen : (acc ++ [ch]).length = acc.length + 1 := by simp
          refine ⟨by omega, ?_⟩
          rcases h3 with h3 | h3
          · left
            subst h3
            simp
          · right
            omega
        · rw [if_neg h3] at h
          push_neg at h3
          have hrec := ih (oneHotRow tc.length idx) (M.step st tgt).2 (acc ++ [ch]) s
            (by simpa using h3.2) h
          have hlen : (acc ++ [ch]).length = acc.length + 1 := by simp
          exact ⟨by omega, hrec.2⟩

theorem decodeLoop_end_only_last {σ : Type} (M : Seq2SeqModel σ) (tc : List Char)
    (maxDec : Nat) :
    ∀ (fuel : Nat) (tgt : List ℚ) (st : σ) (acc s : List Char),
    endMarker ∉ acc → decodeLoop M tc maxDec tgt st acc fuel = .ok s →
    endMarker ∉ s.dropLast := by
  intro fuel
  induction fuel with
  | zero =>
    intro tgt st acc s hacc h
    simp [decodeLoop] at h
  | succ n ih =>
    intro tgt st acc s hacc h
    rw [decodeLoop_succ_eq] at h
    rcases hm1 : argmax (M.step st tgt).1 with _ | idx
    · simp [hm1] at h
    · simp only [hm1] at h
      rcases hm2 : index_to_char tc idx with _ | ch
      · simp [hm2] at h
      · simp only [hm2] at h
        by_cases h3 : ch = endMarker ∨ maxDec < (acc ++ [ch]).length
        · rw [if_pos h3] at h
          have hs : s = acc ++ [ch] := by simpa using h.symm
          subst hs
          rw [List.dropLast_concat]
          exact hacc
        · rw [if_neg h3] at h
          push_neg at h3
          refine ih (oneHotRow tc.length idx) (M.step st tgt).2 (acc ++ [ch]) s ?_ h
          intro hmem
          rcases List.mem_append.mp hmem with hmem | hmem
          · exact hacc hmem
          · have heq : endMarker = ch := by simpa using hmem
            exact h3.1 heq.symm

theorem decodeLoop_ok_of_wf {σ : Type} (M : Seq2SeqModel σ) (tc : List Char) (maxDec : Nat)
    (hstep : ∀ (st : σ) (t : List ℚ), (M.step st t).1.length = tc.length)
    (htc : tc ≠ []) :
    ∀ (fuel : Nat) (tgt : List ℚ) (st : σ) (acc : List Char),
    maxDec + 1 ≤ acc.length + fuel → acc.length ≤ maxDec →
    ∃ s, decodeLoop M tc maxDec tgt st acc fuel = .ok s := by
  intro fuel
  induction fuel with
  | zero =>
    intro tgt st acc h1 h2
    omega
  | succ n ih =>
    intro tgt st acc h1 h2
    have hne : (M.step st tgt).1 ≠ [] := by
      intro hnil
      apply htc
      have hl := hstep st tgt
      rw [hnil] at hl
      exact List.length_eq_zero.mp hl.symm
    obtain ⟨x, xs, hxs⟩ := List.exists_cons_of_ne_nil hne
    have hidx : argmax (M.step st tgt).1 = some (argmaxAux xs 1 0 x) := by
      rw [hxs]
      rfl
    have hlt : argmaxAux xs 1 0 x < tc.length := by
      have hb := (argmax_spec hidx).1
      rw [hstep st tgt] at hb
      exact hb
    obtain ⟨ch, hch⟩ : ∃ ch, index_to_char tc (argmaxAux xs 1 0 x) = some ch :=
      ⟨tc.get ⟨argmaxAux xs 1 0 x, hlt⟩, List.get?_eq_get hlt⟩
    rw [decodeLoop_succ_eq]
    simp only [hidx, hch]
    by_cases h3 : ch = endMarker ∨ maxDec < (acc ++ [ch]).length
    · rw [if_pos h3]
      exact ⟨acc ++ [ch], rfl⟩
    · rw [if_neg h3]
      push_neg at h3
      have hlen : (acc ++ [ch]).length = acc.length + 1 := by simp
      exact ih (oneHotRow tc.length (argmaxAux xs 1 0 x)) (M.step st tgt).2 (acc ++ [ch])
        (by omega) (by omega)


/-! ### Claim theorems about `decode_sentence` -/

theorem mem_of_char_to_index_some {vocab : List Char} {c : Char} {j : Nat}
    (h : char_to_index vocab c = some j) : c ∈ vocab := by
  by_contra hc
  simp [char_to_index, hc] at h

theorem decode_sentence_ok_elim {σ : Type} (M : Seq2SeqModel σ) (ic tc : List Char)
    (maxEnc maxDec : Nat) (x : String) (s : List Char)
    (h : decode_sentence M ic tc maxEnc maxDec x = .ok s) :
    ∃ seq j, fillInput ic x.toList 0 (zeroMatrix maxEnc ic.length) = some seq ∧
      char_to_index tc startMarker = some j ∧
      decodeLoop M tc maxDec (oneHotRow tc.length j) (M.encode seq) [] (maxDec + 1) = .ok s := by
  simp only [decode_sentence] at h
  rcases hf : fillInput ic x.toList 0 (zeroMatrix maxEnc ic.length) with _ | seq
  · simp only [hf] at h
    exact absurd h (by simp)
  · simp only [hf] at h
    rcases hj : char_to_index tc startMarker with _ | j
    · simp only [hj] at h
      exact absurd h (by simp)
    · simp only [hj] at h
      exact ⟨seq, j, rfl, rfl, h⟩

/-- C3: for any fixed trained parameter set and any input sentence,
`decode_sentence` terminates within at most `maxDec + 1` loop iterations: any
iteration budget of at least `maxDec + 1` yields the result of
`decode_sentence` itself (whose budget is `maxDec + 1`), and the budget is
never exhausted — the end-marker and length checks are the only exits and the
loop cannot run forever. -/
theorem spec_C3_terminates {σ : Type} (M : Seq2SeqModel σ) (ic tc : List Char)
    (maxEnc maxDec : Nat) (x : String) (fuel : Nat) (hf : maxDec + 1 ≤ fuel) :
    decode_sentenceFuel M ic tc maxEnc maxDec x fuel =
      decode_sentence M ic tc maxEnc maxDec x ∧
    decode_sentence M ic tc maxEnc maxDec x ≠ .error .fuelOut := by
  obtain ⟨k, rfl⟩ : ∃ k, fuel = maxDec + 1 + k := ⟨fuel - (maxDec + 1), by omega⟩
  simp only [decode_sentenceFuel, decode_sentence]
  rcases hfi : fillInput ic x.toList 0 (zeroMatrix maxEnc ic.length) with _ | seq
  · simp only [hfi]
    exact ⟨trivial, by simp⟩
  · simp only [hfi]
    rcases hj : char_to_index tc startMarker with _ | j
    · simp only [hj]
      exact ⟨trivial, by simp⟩
    · simp only [hj]
      refine ⟨decodeLoop_fuel_stable M tc maxDec (oneHotRow tc.length j) (M.encode seq) k, ?_⟩
      exact decodeLoop_no_fuelOut M tc maxDec (maxDec + 1) (oneHotRow tc.length j)
        (M.encode seq) [] (by simp) (by simp)

/-- Witness for C3 at a concrete model, sentence and budget. -/
theorem spec_C3_witness :
    decode_sentenceFuel markerModel icTest tcTest 1 5 "b" 10 =
        decode_sentence markerModel icTest tcTest 1 5 "b" ∧
      decode_sentence markerModel icTest tcTest 1 5 "b" ≠ .error .fuelOut :=
  spec_C3_terminates markerModel icTest tcTest 1 5 "b" 10 (by omega)

/-- C4 counterexample: with `max_decoder_seq_length = 2` and a decoder that
never emits the end marker, `decode_sentence` returns three characters; the
loop body appends exactly one character per execution, so it executed three
times, exceeding `max_decoder_seq_length`. -/
theorem spec_C4_counterexample :
    decode_sentence constModel icTest tcTest 1 2 "b" = .ok ['a', 'a', 'a'] ∧
      2 < ['a', 'a', 'a'].length := ⟨by rfl, by decide⟩

/-- C4 (amended): the STEPPING loop body of the greedy decoder is executed at
most `maxDec + 1` times per invocation of `decode_sentence` (the strict
`>` in the stop check permits one extra character beyond the training-time
maximum): each execution appends exactly one character, and every returned
sentence has length at most `maxDec + 1`. -/
theorem spec_C4_loop_body_bound {σ : Type} (M : Seq2SeqModel σ) (ic tc : List Char)
    (maxEnc maxDec : Nat) (x : String) (s : List Char)
    (h : decode_sentence M ic tc maxEnc maxDec x = .ok s) : s.length ≤ maxDec + 1 := by
  obtain ⟨seq, j, hf, hj, hloop⟩ := decode_sentence_ok_elim M ic tc maxEnc maxDec x s h
  exact decodeLoop_ok_length M tc maxDec (maxDec + 1) (oneHotRow tc.length j)
    (M.encode seq) [] s (by simp) hloop

/-- Witness for the amended C4 at a concrete decode returning 3 ≤ 2 + 1
characters. -/
theorem spec_C4_witness :
    decode_sentence constModel icTest tcTest 1 2 "b" = .ok ['a', 'a', 'a'] ∧
      (['a', 'a', 'a'] : List Char).length ≤ 2 + 1 :=
  ⟨by rfl, spec_C4_loop_body_bound constModel icTest tcTest 1 2 "b" ['a', 'a', 'a'] (by rfl)⟩

/-- C1 counterexample: a decoder whose first sampled character is the start
marker and whose second is the end marker makes `decode_sentence` return the
two-character string tab-newline: the returned text contains a start marker,
and contains the end marker — the end marker is included, not excluded. -/
theorem spec_C1_counterexample :
    decode_sentence markerModel icTest tcTest 1 5 "b" = .ok ['\t', '\n'] ∧
      startMarker ∈ ['\t', '\n'] ∧ endMarker ∈ ['\t', '\n'] :=
  ⟨by rfl, by decide, by decide⟩

/-- C1 (amended): the accumulated output is returned unfiltered; when the loop
terminates because the sampled character equals the end marker, that end
marker is included as the final character of the returned text, and an end
marker never occurs before the final position (sampled start markers are
likewise kept in the output). -/
theorem spec_C1_end_marker_position {σ : Type} (M : Seq2SeqModel σ) (ic tc : List Char)
    (maxEnc maxDec : Nat) (x : String) (s : List Char)
    (h : decode_sentence M ic tc maxEnc maxDec x = .ok s) : endMarker ∉ s.dropLast := by
  obtain ⟨seq, j, hf, hj, hloop⟩ := decode_sentence_ok_elim M ic tc maxEnc maxDec x s h
  exact decodeLoop_end_only_last M tc maxDec (maxDec + 1) (oneHotRow tc.length j)
    (M.encode seq) [] s (by simp) hloop

/-- Witness for the amended C1 at a concrete decode ending in the end marker. -/
theorem spec_C1_witness :
    decode_sentence markerModel icTest tcTest 1 5 "b" = .ok ['\t', '\n'] ∧
      endMarker ∉ (['\t', '\n'] : List Char).dropLast :=
  ⟨by rfl, spec_C1_end_marker_position markerModel icTest tcTest 1 5 "b" ['\t', '\n'] (by rfl)⟩

/-- C10: every sentence returned by `decode_sentence` is non-empty, and either
its last character is the end marker or its length is exactly `maxDec + 1`
(a character is appended before every termination check). -/
theorem spec_C10_exit_shape {σ : Type} (M : Seq2SeqModel σ) (ic tc : List Char)
    (maxEnc maxDec : Nat) (x : String) (s : List Char)
    (h : decode_sentence M ic tc maxEnc maxDec x = .ok s) :
    s ≠ [] ∧ (s.getLast? = some endMarker ∨ s.length = maxDec + 1) := by
  obtain ⟨seq, j, hf, hj, hloop⟩ := decode_sentence_ok_elim M ic tc maxEnc maxDec x s h
  have hs := decodeLoop_ok_shape M tc maxDec (maxDec + 1) (oneHotRow tc.length j)
    (M.encode seq) [] s (by simp) hloop
  refine ⟨?_, hs.2⟩
  have hpos : 0 < s.length := by simpa using hs.1
  exact List.length_pos.mp hpos

/-- Witness for C10 at a concrete decode ending in the end marker. -/
theorem spec_C10_witness :
    decode_sentence markerModel icTest tcTest 1 5 "b" = .ok ['\t', '\n'] ∧
      ((['\t', '\n'] : List Char) ≠ [] ∧
        ((['\t', '\n'] : List Char).getLast? = some endMarker ∨
          (['\t', '\n'] : List Char).length = 5 + 1)) :=
  ⟨by rfl, spec_C10_exit_shape markerModel icTest tcTest 1 5 "b" ['\t', '\n'] (by rfl)⟩

theorem fillInput_none_of_oov (ic : List Char) :
    ∀ (s : List Char) (t : Nat) (m : List (List ℚ)) (c : Char), c ∈ s → c ∉ ic →
    fillInput ic s t m = none := by
  intro s
  induction s with
  | nil =>
    intro t m c hc
    simp at hc
  | cons d rest ih =>
    intro t m c hc hnc
    simp only [fillInput]
    rcases hd : char_to_index ic d with _ | j
    · simp only [hd]
    · simp only [hd]
      have hcr : c ∈ rest := by
        rcases List.mem_cons.mp hc with hx | hx
        · exact absurd (hx ▸ mem_of_char_to_index_some hd) hnc
        · exact hx
      by_cases ht : t < m.length
      · rw [if_pos ht]
        exact ih (t+1) (setEntry m t j) c hcr hnc
      · rw [if_neg ht]

/-- C8: a character of the input sentence absent from the training-time source
vocabulary makes `decode_sentence` fail with the dictionary lookup error
(Python's `KeyError` on `input_token_index[char]`), rather than silently
substituting a default index or leaving an all-zero one-hot row. -/
theorem spec_C8_unknown_char {σ : Type} (M : Seq2SeqModel σ) (ic tc : List Char)
    (maxEnc maxDec : Nat) (x : String) (c : Char) (hc : c ∈ x.toList) (hnc : c ∉ ic) :
    decode_sentence M ic tc maxEnc maxDec x = .error .keyError := by
  simp only [decode_sentence]
  rw [fillInput_none_of_oov ic x.toList 0 (zeroMatrix maxEnc ic.length) c hc hnc]

/-- Witness for C8: decoding a sentence with the out-of-vocabulary character z
fails. -/
theorem spec_C8_witness :
    ('z' ∈ "za".toList ∧ 'z' ∉ icTest) ∧
      decode_sentence markerModel icTest tcTest 2 5 "za" = .error .keyError :=
  ⟨⟨by decide, by decide⟩,
    spec_C8_unknown_char markerModel icTest tcTest 2 5 "za" 'z' (by decide) (by decide)⟩

/-- C9: decoding the empty sentence is valid: the encoder input matrix is the
all-zero matrix and no error occurs in building it, and — whenever the decoder
emits distributions over the target alphabet (which contains the start marker,
hence is non-empty) — the loop still executes at least one step, so the
returned sentence is non-empty. -/
theorem spec_C9_empty_input {σ : Type} (M : Seq2SeqModel σ) (ic tc : List Char)
    (maxEnc maxDec : Nat)
    (hstep : ∀ (st : σ) (t : List ℚ), (M.step st t).1.length = tc.length)
    (hstart : startMarker ∈ tc) :
    fillInput ic "".toList 0 (zeroMatrix maxEnc ic.length) =
        some (zeroMatrix maxEnc ic.length) ∧
      ∃ s, decode_sentence M ic tc maxEnc maxDec "" = .ok s ∧ 1 ≤ s.length := by
  refine ⟨rfl, ?_⟩
  have htc : tc ≠ [] := by
    intro h
    rw [h] at hstart
    simp at hstart
  simp only [decode_sentence]
  have hf : fillInput ic "".toList 0 (zeroMatrix maxEnc ic.length) =
      some (zeroMatrix maxEnc ic.length) := rfl
  simp only [hf]
  have hj : char_to_index tc startMarker = some (List.indexOf startMarker tc) := by
    simp [char_to_index, hstart]
  simp only [hj]
  obtain ⟨s, hs⟩ := decodeLoop_ok_of_wf M tc maxDec hstep htc (maxDec + 1)
    (oneHotRow tc.length (List.indexOf startMarker tc))
    (M.encode (zeroMatrix maxEnc ic.length)) [] (by simp) (by simp)
  have hsh := decodeLoop_ok_shape M tc maxDec (maxDec + 1)
    (oneHotRow tc.length (List.indexOf startMarker tc))
    (M.encode (zeroMatrix maxEnc ic.length)) [] s (by simp) hs
  exact ⟨s, hs, by simpa using hsh.1⟩

/-- Witness for C9 at a concrete well-formed model. -/
theorem spec_C9_witness :
    (∀ (st : Nat) (t : List ℚ), (markerModel.step st t).1.length = tcTest.length) ∧
      startMarker ∈ tcTest ∧
      (fillInput icTest "".toList 0 (zeroMatrix 3 icTest.length) =
          some (zeroMatrix 3 icTest.length) ∧
        ∃ s, decode_sentence markerModel icTest tcTest 3 5 "" = .ok s ∧ 1 ≤ s.length) := by
  have hstep : ∀ (st : Nat) (t : List ℚ), (markerModel.step st t).1.length = tcTest.length := by
    intro st t
    by_cases h : st = 0 <;> simp [markerModel, h, tcTest]
  exact ⟨hstep, by decide, spec_C9_empty_input markerModel icTest tcTest 3 5 hstep (by decide)⟩

/-! ### Claim theorems about the vocabulary index and the vectorizer -/

theorem buildVocab_nodup (corpus : List String) : (buildVocab corpus).Nodup :=
  ((List.perm_insertionSort (· ≤ ·) _).nodup_iff).mpr (List.nodup_dedup _)

theorem mem_buildVocab {corpus : List String} {d : Char} :
    d ∈ buildVocab corpus ↔ ∃ s ∈ corpus, d ∈ s.toList := by
  unfold buildVocab
  rw [List.mem_insertionSort, List.mem_dedup]
  constructor
  · intro hd
    obtain ⟨l, hl, hdl⟩ := List.mem_flatten.mp hd
    obtain ⟨s, hs, rfl⟩ := List.mem_map.mp hl
    exact ⟨s, hs, hdl⟩
  · intro ⟨s, hs, hd⟩
    exact List.mem_flatten.mpr ⟨s.toList, List.mem_map.mpr ⟨s, hs, rfl⟩, hd⟩

/-- C6: for every character `c` of the vocabulary built from one corpus side,
`index_to_char (char_to_index c) = c`; the assigned indices are exactly the
contiguous duplicate-free range below the alphabet size (the list is `Nodup`
and every index below its length is hit); and the assignment is the sorted
enumeration of precisely the characters observed in the corpus — being a pure
function of the corpus, it is deterministic across runs on identical data. -/
theorem spec_C6_vocab_roundtrip (corpus : List String) (c : Char)
    (hc : c ∈ buildVocab corpus) :
    (∃ i, char_to_index (buildVocab corpus) c = some i ∧
      i < (buildVocab corpus).length ∧ index_to_char (buildVocab corpus) i = some c) ∧
    (buildVocab corpus).Nodup ∧ (buildVocab corpus).Sorted (· ≤ ·) ∧
    (∀ i, i < (buildVocab corpus).length →
      ∃ d, index_to_char (buildVocab corpus) i = some d ∧
        char_to_index (buildVocab corpus) d = some i) ∧
    (∀ d, d ∈ buildVocab corpus ↔ ∃ s ∈ corpus, d ∈ s.toList) := by
  refine ⟨?_, buildVocab_nodup corpus, List.sorted_insertionSort _ _, ?_,
    fun d => mem_buildVocab⟩
  · refine ⟨List.indexOf c (buildVocab corpus), ?_, List.indexOf_lt_length.mpr hc, ?_⟩
    · simp [char_to_index, hc]
    · exact List.indexOf_get? hc
  · intro i hi
    refine ⟨(buildVocab corpus).get ⟨i, hi⟩, List.get?_eq_get hi, ?_⟩
    have hm2 : (buildVocab corpus)[i] ∈ buildVocab corpus := List.getElem_mem hi
    show char_to_index (buildVocab corpus) ((buildVocab corpus)[i]) = some i
    unfold char_to_index
    rw [if_pos hm2, List.indexOf_getElem (buildVocab_nodup corpus) i hi]

/-- Witness for C6 on the two-string corpus ba, ab. -/
theorem spec_C6_witness :
    'a' ∈ buildVocab ["ba", "ab"] ∧
      ((∃ i, char_to_index (buildVocab ["ba", "ab"]) 'a' = some i ∧
          i < (buildVocab ["ba", "ab"]).length ∧
          index_to_char (buildVocab ["ba", "ab"]) i = some 'a') ∧
        (buildVocab ["ba", "ab"]).Nodup ∧
        (buildVocab ["ba", "ab"]).Sorted (· ≤ ·) ∧
        (∀ i, i < (buildVocab ["ba", "ab"]).length →
          ∃ d, index_to_char (buildVocab ["ba", "ab"]) i = some d ∧
            char_to_index (buildVocab ["ba", "ab"]) d = some i) ∧
        (∀ d, d ∈ buildVocab ["ba", "ab"] ↔ ∃ s ∈ ["ba", "ab"], d ∈ s.toList)) :=
  ⟨by decide, spec_C6_vocab_roundtrip ["ba", "ab"] 'a' (by decide)⟩

/-- C7 counterexample: the code contains no zero-alphabet check and no
ConfigurationError: the corpus containing one empty string yields an empty
alphabet, and vectorizing it succeeds — returning the degenerate zero-width
one-hot tensor — instead of failing fast. -/
theorem spec_C7_counterexample :
    buildVocab [""] = [] ∧
      encoder_input_data (buildVocab [""]) 0 [""] = some [[]] := by decide

theorem encoder_input_data_empty_vocab (maxLen : Nat) :
    ∀ (inputs : List String), (∀ s ∈ inputs, s.toList = []) →
    encoder_input_data [] maxLen inputs =
      some (List.replicate inputs.length (zeroMatrix maxLen 0)) := by
  intro inputs
  induction inputs with
  | nil =>
    intro _
    rfl
  | cons s rest ih =>
    intro hempty
    have hs : encoderData [] maxLen s = some (zeroMatrix maxLen 0) := by
      unfold encoderData
      rw [hempty s (List.mem_cons_self s rest)]
      rfl
    have hrest := ih (fun t ht => hempty t (List.mem_cons_of_mem s ht))
    unfold encoder_input_data at hrest ⊢
    rw [List.mapM_cons, hs, hrest]
    rfl

/-- C7 (amended): with a size-zero alphabet, vectorization raises no error and
does construct the degenerate zero-width tensor: whenever the built vocabulary
is empty (so every corpus string is empty), `encoder_input_data` succeeds and
returns one `maxLen × 0` all-zero matrix per training example. -/
theorem spec_C7_zero_alphabet_no_error (inputs : List String) (maxLen : Nat)
    (h : buildVocab inputs = []) :
    encoder_input_data (buildVocab inputs) maxLen inputs =
      some (List.replicate inputs.length (zeroMatrix maxLen 0)) := by
  have hempty : ∀ s ∈ inputs, s.toList = [] := by
    intro s hs
    rw [List.eq_nil_iff_forall_not_mem]
    intro d hd
    have hmem : d ∈ buildVocab inputs := mem_buildVocab.mpr ⟨s, hs, hd⟩
    rw [h] at hmem
    simp at hmem
  rw [h]
  exact encoder_input_data_empty_vocab maxLen inputs hempty

/-- Witness for the amended C7 at the concrete one-empty-string corpus. -/
theorem spec_C7_witness :
    buildVocab [""] = [] ∧
      encoder_input_data (buildVocab [""]) 0 [""] =
        some (List.replicate (List.length ([""] : List String)) (zeroMatrix 0 0)) :=
  ⟨by decide, spec_C7_zero_alphabet_no_error [""] 0 (by decide)⟩

/-! ### The decoder-target shift invariant -/

theorem setEntry_length (m : List (List ℚ)) :
    ∀ (t j : Nat), (setEntry m t j).length = m.length := by
  induction m with
  | nil =>
    intro t j
    rfl
  | cons row rest ih =>
    intro t j
    cases t with
    | zero => rfl
    | succ t2 => simp [setEntry, ih t2 j]

theorem setEntry_get? (m : List (List ℚ)) : ∀ (t j u : Nat),
    (setEntry m t j).get? u =
      if u = t then (m.get? u).map (fun row => row.set j 1) else m.get? u := by
  induction m with
  | nil =>
    intro t j u
    show (List.get? [] u) = _
    simp
  | cons row rest ih =>
    intro t j u
    cases t with
    | zero =>
      cases u with
      | zero => simp [setEntry]
      | succ u2 => simp [setEntry]
    | succ t2 =>
      cases u with
      | zero => simp [setEntry]
      | succ u2 =>
        show (setEntry rest t2 j).get? u2 = _
        rw [ih t2 j u2]
        by_cases h : u2 = t2
        · rw [if_pos h, if_pos (by omega)]
          simp
        · rw [if_neg h, if_neg (by omega)]
          simp

theorem setRows_get? : ∀ (js : List Nat) (m : List (List ℚ)) (t u : Nat),
    (setRows m t js).get? u =
      if t ≤ u ∧ u - t < js.length then
        (m.get? u).map (fun row => row.set (js.getD (u - t) 0) 1)
      else m.get? u := by
  intro js
  induction js with
  | nil =>
    intro m t u
    simp [setRows]
  | cons j js ih =>
    intro m t u
    rw [show setRows m t (j :: js) = setRows (setEntry m t j) (t + 1) js from rfl]
    rw [ih]
    by_cases hut : u = t
    · subst hut
      rw [if_neg (by omega), if_pos ⟨le_refl u, by simp⟩]
      rw [setEntry_get?, if_pos rfl]
      simp
    · rw [setEntry_get?, if_neg hut]
      by_cases hc : t ≤ u ∧ u - t < (j :: js).length
      · have hc2 : t + 1 ≤ u ∧ u - (t + 1) < js.length := by
          simp only [List.length_cons] at hc
          omega
        rw [if_pos hc2, if_pos hc]
        have hsucc : u - t = (u - (t + 1)) + 1 := by omega
        rw [hsucc, List.getD_cons_succ]
      · have hc2 : ¬(t + 1 ≤ u ∧ u - (t + 1) < js.length) := by
          simp only [List.length_cons] at hc
          omega
        rw [if_neg hc2, if_neg hc]

theorem charIdxs_length (vocab : List Char) : ∀ (y : List Char) (js : List Nat),
    charIdxs vocab y = some js → js.length = y.length := by
  intro y
  induction y with
  | nil =>
    intro js h
    have hjs : js = [] := by simpa [charIdxs] using h.symm
    subst hjs
    rfl
  | cons c rest ih =>
    intro js h
    simp only [charIdxs] at h
    rcases h1 : char_to_index vocab c with _ | j
    · rw [h1] at h
      simp at h
    · rcases h2 : charIdxs vocab rest with _ | js2
      · rw [h1, h2] at h
        simp at h
      · rw [h1, h2] at h
        have hjs : js = j :: js2 := by simpa using h.symm
        subst hjs
        simp [ih js2 h2]

theorem fillDecoderData_eq_fillIdx (vocab : List Char) : ∀ (y : List Char) (t : Nat)
    (di dt : List (List ℚ)) (res : List (List ℚ) × List (List ℚ)),
    fillDecoderData vocab y t di dt = some res →
    ∃ js, charIdxs vocab y = some js ∧ fillIdx js t di dt = some res := by
  intro y
  induction y with
  | nil =>
    intro t di dt res h
    refine ⟨[], rfl, ?_⟩
    simpa [fillDecoderData, fillIdx] using h
  | cons c rest ih =>
    intro t di dt res h
    simp only [fillDecoderData] at h
    rcases h1 : char_to_index vocab c with _ | j
    · simp only [h1] at h
      simp at h
    · simp only [h1] at h
      by_cases ht : t < di.length
      · rw [if_pos ht] at h
        obtain ⟨js, hjs, hfill⟩ := ih (t + 1) (setEntry di t j)
          (if t = 0 then dt else setEntry dt (t - 1) j) res h
        refine ⟨j :: js, ?_, ?_⟩
        · simp [charIdxs, h1, hjs]
        · have hunf : fillIdx (j :: js) t di dt =
              if t < di.length then
                fillIdx js (t + 1) (setEntry di t j)
                  (if t = 0 then dt else setEntry dt (t - 1) j)
              else none := rfl
          rw [hunf, if_pos ht]
          exact hfill
      · rw [if_neg ht] at h
        simp at h

theorem fillIdx_succ : ∀ (js : List Nat) (t : Nat) (di dt : List (List ℚ))
    (res : List (List ℚ) × List (List ℚ)),
    fillIdx js (t + 1) di dt = some res →
    res.1 = setRows di (t + 1) js ∧ res.2 = setRows dt t js := by
  intro js
  induction js with
  | nil =>
    intro t di dt res h
    have hres : res = (di, dt) := by simpa [fillIdx] using h.symm
    subst hres
    exact ⟨rfl, rfl⟩
  | cons j js ih =>
    intro t di dt res h
    have hunf : fillIdx (j :: js) (t + 1) di dt =
        if t + 1 < di.length then
          fillIdx js (t + 2) (setEntry di (t + 1) j) (setEntry dt t j)
        else none := rfl
    rw [hunf] at h
    by_cases ht : t + 1 < di.length
    · rw [if_pos ht] at h
      obtain ⟨h1, h2⟩ := ih (t + 1) (setEntry di (t + 1) j) (setEntry dt t j) res h
      constructor
      · rw [h1]
        rfl
      · rw [h2]
        rfl
    · rw [if_neg ht] at h
      simp at h

theorem fillIdx_zero : ∀ (js : List Nat) (di dt : List (List ℚ))
    (res : List (List ℚ) × List (List ℚ)),
    fillIdx js 0 di dt = some res →
    res.1 = setRows di 0 js ∧ res.2 = setRows dt 0 js.tail := by
  intro js di dt res h
  cases js with
  | nil =>
    have hres : res = (di, dt) := by simpa [fillIdx] using h.symm
    subst hres
    exact ⟨rfl, rfl⟩
  | cons j js =>
    have hunf : fillIdx (j :: js) 0 di dt =
        if 0 < di.length then fillIdx js 1 (setEntry di 0 j) dt else none := rfl
    rw [hunf] at h
    by_cases h0 : 0 < di.length
    · rw [if_pos h0] at h
      obtain ⟨h1, h2⟩ := fillIdx_succ js 0 (setEntry di 0 j) dt res h
      constructor
      · rw [h1]
        rfl
      · simpa using h2
    · rw [if_neg h0] at h
      simp at h

theorem fillIdx_bound : ∀ (js : List Nat) (t : Nat) (di dt : List (List ℚ))
    (res : List (List ℚ) × List (List ℚ)),
    fillIdx js t di dt = some res → t + js.length ≤ di.length ∨ js = [] := by
  intro js
  induction js with
  | nil =>
    intro t di dt res h
    right
    rfl
  | cons j js ih =>
    intro t di dt res h
    left
    have hunf : fillIdx (j :: js) t di dt =
        if t < di.length then
          fillIdx js (t + 1) (setEntry di t j) (if t = 0 then dt else setEntry dt (t - 1) j)
        else none := rfl
    rw [hunf] at h
    by_cases ht : t < di.length
    · rw [if_pos ht] at h
      rcases ih (t + 1) (setEntry di t j) (if t = 0 then dt else setEntry dt (t - 1) j) res h
        with hb | hnil
      · rw [setEntry_length di t j] at hb
        simp only [List.length_cons]
        omega
      · subst hnil
        simp only [List.length_cons, List.length_nil]
        omega
    · rw [if_neg ht] at h
      simp at h

theorem replicate_get? {α : Type} (a : α) : ∀ (r u : Nat),
    (List.replicate r a).get? u = if u < r then some a else none := by
  intro r
  induction r with
  | zero =>
    intro u
    simp
  | succ n ih =>
    intro u
    cases u with
    | zero => simp [List.replicate]
    | succ u2 =>
      show (List.replicate n a).get? u2 = _
      rw [ih u2]
      by_cases h : u2 < n
      · rw [if_pos h, if_pos (by omega)]
      · rw [if_neg h, if_neg (by omega)]

theorem decoderData_shift (vocab : List Char) (maxLen : Nat) (y : String)
    (di dt : List (List ℚ)) (h : decoderData vocab maxLen y = some (di, dt)) (t : Nat) :
    (t + 1 < y.toList.length → dt.get? t = di.get? (t + 1)) ∧
    (t < maxLen → ¬ t + 1 < y.toList.length → dt.get? t = some (zeroRow vocab.length)) := by
  obtain ⟨js, hjs, hfill⟩ := fillDecoderData_eq_fillIdx vocab y.toList 0
    (zeroMatrix maxLen vocab.length) (zeroMatrix maxLen vocab.length) (di, dt) h
  have hjlen : js.length = y.toList.length := charIdxs_length vocab y.toList js hjs
  obtain ⟨h1, h2⟩ := fillIdx_zero js (zeroMatrix maxLen vocab.length)
    (zeroMatrix maxLen vocab.length) (di, dt) hfill
  have h1d : di = setRows (zeroMatrix maxLen vocab.length) 0 js := h1
  have h2d : dt = setRows (zeroMatrix maxLen vocab.length) 0 js.tail := h2
  have hlen : js.length ≤ maxLen := by
    rcases fillIdx_bound js 0 (zeroMatrix maxLen vocab.length)
        (zeroMatrix maxLen vocab.length) (di, dt) hfill with hb | hnil
    · simpa [zeroMatrix] using hb
    · rw [hnil]
      simp
  constructor
  · intro hlt
    rw [h1d, h2d, setRows_get?, setRows_get?]
    have hcond1 : 0 ≤ t ∧ t - 0 < js.tail.length := by
      rw [List.length_tail]
      omega
    have hcond2 : 0 ≤ t + 1 ∧ t + 1 - 0 < js.length := by omega
    rw [if_pos hcond1, if_pos hcond2]
    have hz1 : (zeroMatrix maxLen vocab.length).get? t = some (zeroRow vocab.length) := by
      simp only [zeroMatrix]
      rw [replicate_get?, if_pos (by omega)]
    have hz2 : (zeroMatrix maxLen vocab.length).get? (t + 1) = some (zeroRow vocab.length) := by
      simp only [zeroMatrix]
      rw [replicate_get?, if_pos (by omega)]
    rw [hz1, hz2]
    obtain ⟨j, js2, hjs2⟩ : ∃ j js2, js = j :: js2 := by
      cases js with
      | nil =>
        exfalso
        have hz : y.toList.length = 0 := by
          rw [← hjlen]
          rfl
        omega
      | cons j js2 => exact ⟨j, js2, rfl⟩
    subst hjs2
    simp
  · intro htm hnlt
    rw [h2d, setRows_get?]
    have hcond : ¬(0 ≤ t ∧ t - 0 < js.tail.length) := by
      rw [List.length_tail]
      omega
    rw [if_neg hcond]
    simp only [zeroMatrix]
    rw [replicate_get?, if_pos htm]

theorem mapM_get?_option {α β : Type} (f : α → Option β) :
    ∀ (l : List α) (r : List β), l.mapM f = some r →
    ∀ (i : Nat) (a : α), l.get? i = some a → ∃ b, r.get? i = some b ∧ f a = some b := by
  intro l
  induction l with
  | nil =>
    intro r hr i a ha
    simp at ha
  | cons x xs ih =>
    intro r hr i a ha
    rw [List.mapM_cons] at hr
    rcases hfx : f x with _ | b
    · rw [hfx] at hr
      simp at hr
    · rw [hfx] at hr
      rcases hxs : xs.mapM f with _ | bs
      · rw [hxs] at hr
        simp at hr
      · rw [hxs] at hr
        have hr2 : r = b :: bs := by simpa using hr.symm
        subst hr2
        cases i with
        | zero =>
          have hax : a = x := by simpa using ha.symm
          subst hax
          exact ⟨b, rfl, hfx⟩
        | succ i2 =>
          have ha2 : xs.get? i2 = some a := by simpa using ha
          obtain ⟨b2, hb2, hfb2⟩ := ih bs hxs i2 a ha2
          exact ⟨b2, by simpa using hb2, hfb2⟩

/-- C2: for every training example `i` (with wrapped target text `y`) and time
step `t`, the decoder-target row at `t` equals the decoder-input row at `t+1`
whenever `t+1` is within the true (unpadded) target length, and is an all-zero
row otherwise: the shift drops the start marker and leaves no encoding for the
final padding slot. -/
theorem spec_C2_shift_invariant (vocab : List Char) (maxLen : Nat) (targets : List String)
    (ds : List (List (List ℚ) × List (List ℚ))) (i : Nat) (y : String)
    (di dt : List (List ℚ)) (t : Nat)
    (hds : decoderDatas vocab maxLen targets = some ds)
    (hy : targets.get? i = some y) (hdt : ds.get? i = some (di, dt)) :
    (t + 1 < y.toList.length → dt.get? t = di.get? (t + 1)) ∧
    (t < maxLen → ¬ t + 1 < y.toList.length → dt.get? t = some (zeroRow vocab.length)) := by
  obtain ⟨p, hp, hfy⟩ := mapM_get?_option (decoderData vocab maxLen) targets ds hds i y hy
  have hpe : p = (di, dt) := by
    rw [hp] at hdt
    exact Option.some.inj hdt
  subst hpe
  exact decoderData_shift vocab maxLen y di dt hfy t

/-- Witness for C2 on the single-example corpus with wrapped target
tab-a-newline, at time step 0. -/
theorem spec_C2_witness :
    decoderDatas tcTest 4 ["\ta\n"] = some [(diTest, dtTest)] ∧
      (["\ta\n"] : List String).get? 0 = some "\ta\n" ∧
      ([(diTest, dtTest)]).get? 0 = some (diTest, dtTest) ∧
      ((0 + 1 < "\ta\n".toList.length → dtTest.get? 0 = diTest.get? (0 + 1)) ∧
        (0 < 4 → ¬ 0 + 1 < "\ta\n".toList.length → dtTest.get? 0 = some (zeroRow tcTest.length))) :=
  ⟨by decide, by decide, by decide,
    spec_C2_shift_invariant tcTest 4 ["\ta\n"] [(diTest, dtTest)] 0 "\ta\n" diTest dtTest 0
      (by decide) (by decide) (by decide)⟩

end Seq2Seq
